import Mathlib

set_option maxRecDepth 16384

/-!
Verification of the MyPW vault core (src/mypw.py) against its specification.

The Python source is shallowly embedded: byte strings become `List Nat` with
each element below 256, fallible operations return `Option`, and the random
inputs of the source (`os.urandom`, `secrets.choice`) become explicit
arguments.  Third-party library primitives that the source calls
(PBKDF2-HMAC-SHA256, Fernet authenticated encryption, JSON serialization)
are modelled by concrete executable functions satisfying the contracts the
source relies on; each such model carries a doc comment saying so.
-/

/-- One stored credential record, the value of the `accounts` mapping in the
vault dictionary: `{"username": ..., "password": ...}`. -/
structure Entry where
  username : String
  password : String
deriving DecidableEq, Repr

/-- The decrypted vault payload: in the source, the dictionary
`{"accounts": {service: entry, ...}}` held in `vault_data`.  The `accounts`
dict is modelled as an insertion-ordered association list, matching Python
dict semantics (assignment replaces the value of an existing key in place,
otherwise appends). -/
structure Vault where
  accounts : List (String × Entry)
deriving DecidableEq, Repr

/-! ### A self-delimiting byte encoding

Used below to model the byte-level serializations the source obtains from
libraries (`json.dumps` and the Fernet token layout).  `encNat` is a
little-endian base-128 varint: digits carry a continuation bit, so every
emitted byte is below 256 and decoding is self-delimiting. -/

/-- Varint encoder worker: structural recursion on a fuel bound (any fuel at
least the value itself suffices), so that terms reduce inside the kernel. -/
def encNatAux : Nat → Nat → List Nat
  | 0, n => [n]
  | fuel + 1, n => if n < 128 then [n] else (n % 128 + 128) :: encNatAux fuel (n / 128)

/-- Little-endian base-128 varint encoding of a natural number. -/
def encNat (n : Nat) : List Nat := encNatAux n n

theorem encNatAux_fuel (f1 : Nat) : ∀ (f2 n : Nat), n ≤ f1 → n ≤ f2 →
    encNatAux f1 n = encNatAux f2 n := by
  induction f1 with
  | zero =>
    intro f2 n h1 h2
    have hn : n = 0 := by omega
    subst hn
    cases f2 with
    | zero => rfl
    | succ k => simp [encNatAux]
  | succ g ih =>
    intro f2 n h1 h2
    cases f2 with
    | zero =>
      have hn : n = 0 := by omega
      subst hn
      simp [encNatAux]
    | succ k =>
      simp only [encNatAux]
      by_cases h : n < 128
      · simp [h]
      · simp only [h, if_false]
        rw [ih k (n / 128) (by omega) (by omega)]

theorem encNat_unfold (n : Nat) :
    encNat n = if n < 128 then [n] else (n % 128 + 128) :: encNat (n / 128) := by
  cases hn : n with
  | zero => simp [encNat, encNatAux]
  | succ m =>
    by_cases h : m + 1 < 128
    · simp [encNat, encNatAux, h]
    · simp only [encNat, encNatAux, h, if_false]
      rw [encNatAux_fuel m ((m + 1) / 128) ((m + 1) / 128) (by omega) (by omega)]

/-- Decode one varint from the front of a byte list. -/
def decNat : List Nat → Option (Nat × List Nat)
  | [] => none
  | b :: rest =>
    if b < 128 then some (b, rest)
    else
      match decNat rest with
      | some (m, r) => some (b - 128 + 128 * m, r)
      | none => none

theorem decNat_encNat (n : Nat) (r : List Nat) :
    decNat (encNat n ++ r) = some (n, r) := by
  by_cases h : n < 128
  · rw [encNat_unfold]
    simp [h, decNat]
  · rw [encNat_unfold]
    simp only [h, if_false, List.cons_append, decNat]
    have hb : ¬ (n % 128 + 128 < 128) := by omega
    rw [if_neg hb, decNat_encNat (n / 128) r]
    have hn : n % 128 + 128 - 128 + 128 * (n / 128) = n := by omega
    simp
    omega
termination_by n
decreasing_by
  simp only [not_lt] at h
  omega

theorem encNat_lt (n : Nat) : ∀ x ∈ encNat n, x < 256 := by
  by_cases h : n < 128
  · rw [encNat_unfold]
    simp [h]
    omega
  · rw [encNat_unfold]
    simp only [h, if_false, List.mem_cons]
    intro x hx
    rcases hx with hx | hx
    · omega
    · exact encNat_lt (n / 128) x hx
termination_by n
decreasing_by
  simp only [not_lt] at h
  omega

theorem encNat_ne_nil (n : Nat) : encNat n ≠ [] := by
  rw [encNat_unfold]
  by_cases h : n < 128 <;> simp [h]

/-- Concatenated varints of a list of naturals (no count). -/
def encNats (l : List Nat) : List Nat := (l.map encNat).flatten

/-- Decode exactly `k` varints from the front of a byte list. -/
def decNats : Nat → List Nat → Option (List Nat × List Nat)
  | 0, bs => some ([], bs)
  | k + 1, bs =>
    match decNat bs with
    | some (x, r) =>
      match decNats k r with
      | some (xs, r2) => some (x :: xs, r2)
      | none => none
    | none => none

theorem decNats_encNats (l : List Nat) (r : List Nat) :
    decNats l.length (encNats l ++ r) = some (l, r) := by
  induction l with
  | nil => simp [encNats, decNats]
  | cons x xs ih =>
    have ih2 : decNats xs.length ((List.map encNat xs).flatten ++ r) = some (xs, r) := by
      simpa [encNats] using ih
    simp [encNats, decNats, List.append_assoc, decNat_encNat, ih2]

theorem encNats_lt (l : List Nat) : ∀ x ∈ encNats l, x < 256 := by
  intro x hx
  simp only [encNats, List.mem_flatten, List.mem_map] at hx
  obtain ⟨bs, ⟨n, _, hn⟩, hxbs⟩ := hx
  exact encNat_lt n x (hn ▸ hxbs)

/-- Count-prefixed byte-list encoding: varint length, then one varint per
element. -/
def encBytes (l : List Nat) : List Nat := encNat l.length ++ encNats l

/-- Decode a count-prefixed byte list from the front of the input. -/
def decBytes (bs : List Nat) : Option (List Nat × List Nat) :=
  match decNat bs with
  | some (k, r) => decNats k r
  | none => none

theorem decBytes_encBytes (l : List Nat) (r : List Nat) :
    decBytes (encBytes l ++ r) = some (l, r) := by
  simp only [encBytes, List.append_assoc, decBytes]
  rw [decNat_encNat]
  exact decNats_encNats l r

theorem encBytes_lt (l : List Nat) : ∀ x ∈ encBytes l, x < 256 := by
  intro x hx
  simp only [encBytes, List.mem_append] at hx
  rcases hx with hx | hx
  · exact encNat_lt _ x hx
  · exact encNats_lt l x hx

/-! ### Serialization of the vault dictionary

Modelled from the library contract: `json.dumps` / `json.loads` applied to
the vault dictionary `{"accounts": {service: {"username": u, "password": p}}}`.
The spec requires only round-trip fidelity of this serialization ("a
deterministic structured format ... round-trip fidelity is the only hard
requirement"), so the model is a concrete self-delimiting byte encoding of
the same data: strings as count-prefixed code-point varints, entries and the
accounts mapping in the dictionary's fixed shape.  `json_loads` fails
(returns `none`) on bytes that are not an encoding of a vault dictionary,
as `json.loads` raises on non-JSON bytes. -/

/-- Byte encoding of a string: varint character count, then one varint per
Unicode code point. -/
def encStr (s : String) : List Nat :=
  encNat s.toList.length ++ encNats (s.toList.map Char.toNat)

/-- Decode a string from the front of a byte list. -/
def decStr (bs : List Nat) : Option (String × List Nat) :=
  match decNat bs with
  | some (k, r) =>
    match decNats k r with
    | some (cs, r2) => some (String.mk (cs.map Char.ofNat), r2)
    | none => none
  | none => none

theorem decStr_encStr (s : String) (r : List Nat) :
    decStr (encStr s ++ r) = some (s, r) := by
  have h2 : decNats s.length (encNats (List.map Char.toNat s.data) ++ r)
      = some (List.map Char.toNat s.data, r) := by
    have h3 := decNats_encNats (List.map Char.toNat s.data) r
    have h4 : (List.map Char.toNat s.data).length = s.length := by
      simp only [List.length_map]
      rfl
    rw [h4] at h3
    exact h3
  have h5 : List.map (Char.ofNat ∘ Char.toNat) s.data = s.data := by
    induction s.data with
    | nil => rfl
    | cons c cs ih => simp only [List.map_cons, Function.comp_apply, Char.ofNat_toNat, ih]
  simp [encStr, decStr, List.append_assoc, decNat_encNat, h2, List.map_map, h5,
    String.toList]

theorem encStr_lt (s : String) : ∀ x ∈ encStr s, x < 256 := by
  intro x hx
  simp only [encStr, List.mem_append] at hx
  rcases hx with hx | hx
  · exact encNat_lt _ x hx
  · exact encNats_lt _ x hx

/-- Byte encoding of one entry: its username then its password. -/
def encEntry (e : Entry) : List Nat := encStr e.username ++ encStr e.password

/-- Decode one entry from the front of a byte list. -/
def decEntry (bs : List Nat) : Option (Entry × List Nat) :=
  match decStr bs with
  | some (u, r) =>
    match decStr r with
    | some (p, r2) => some (Entry.mk u p, r2)
    | none => none
  | none => none

theorem decEntry_encEntry (e : Entry) (r : List Nat) :
    decEntry (encEntry e ++ r) = some (e, r) := by
  simp [encEntry, decEntry, List.append_assoc, decStr_encStr]

theorem encEntry_lt (e : Entry) : ∀ x ∈ encEntry e, x < 256 := by
  intro x hx
  simp only [encEntry, List.mem_append] at hx
  rcases hx with hx | hx
  · exact encStr_lt _ x hx
  · exact encStr_lt _ x hx

/-- Byte encoding of one accounts item: service key then entry. -/
def encAccount (a : String × Entry) : List Nat := encStr a.1 ++ encEntry a.2

/-- Decode one accounts item from the front of a byte list. -/
def decAccount (bs : List Nat) : Option ((String × Entry) × List Nat) :=
  match decStr bs with
  | some (k, r) =>
    match decEntry r with
    | some (e, r2) => some ((k, e), r2)
    | none => none
  | none => none

theorem decAccount_encAccount (a : String × Entry) (r : List Nat) :
    decAccount (encAccount a ++ r) = some (a, r) := by
  simp [encAccount, decAccount, List.append_assoc, decStr_encStr, decEntry_encEntry]

/-- Decode exactly `k` accounts items from the front of a byte list. -/
def decAccounts : Nat → List Nat → Option (List (String × Entry) × List Nat)
  | 0, bs => some ([], bs)
  | k + 1, bs =>
    match decAccount bs with
    | some (a, r) =>
      match decAccounts k r with
      | some (l, r2) => some (a :: l, r2)
      | none => none
    | none => none

theorem decAccounts_enc (l : List (String × Entry)) (r : List Nat) :
    decAccounts l.length ((l.map encAccount).flatten ++ r) = some (l, r) := by
  induction l with
  | nil => simp [decAccounts]
  | cons a l ih =>
    simp [decAccounts, List.append_assoc, decAccount_encAccount, ih]

/-- Modelled from the library contract: `json.dumps(data).encode()` on the
vault dictionary, as a concrete round-trip-faithful byte encoding (varint
count of accounts, then each service/entry pair). -/
def json_dumps (v : Vault) : List Nat :=
  encNat v.accounts.length ++ (v.accounts.map encAccount).flatten

/-- Modelled from the library contract: `json.loads` on recovered plaintext
bytes; `none` when the bytes are not a complete encoding of a vault
dictionary. -/
def json_loads (bs : List Nat) : Option Vault :=
  match decNat bs with
  | some (k, r) =>
    match decAccounts k r with
    | some (l, []) => some (Vault.mk l)
    | some (_, _ :: _) => none
    | none => none
  | none => none

theorem json_loads_dumps (v : Vault) : json_loads (json_dumps v) = some v := by
  have h2 : decAccounts v.accounts.length ((v.accounts.map encAccount).flatten)
      = some (v.accounts, []) := by
    have h3 := decAccounts_enc v.accounts []
    simpa using h3
  simp [json_dumps, json_loads, decNat_encNat, h2]

theorem json_dumps_lt (v : Vault) : ∀ x ∈ json_dumps v, x < 256 := by
  intro x hx
  simp only [json_dumps, List.mem_append, List.mem_flatten, List.mem_map] at hx
  rcases hx with hx | ⟨bs, ⟨a, _, ha⟩, hxbs⟩
  · exact encNat_lt _ x hx
  · subst ha
    simp only [encAccount, List.mem_append] at hxbs
    rcases hxbs with hxbs | hxbs
    · exact encStr_lt _ x hxbs
    · exact encEntry_lt _ x hxbs

/-! ### Base64

Modelled from the library contract: Python's `base64.b64encode` /
`base64.b64decode` (standard alphabet, RFC 4648) used for the on-disk
container, and `base64.urlsafe_b64encode` used for the Fernet key.  Bytes
and encoded text are `List Nat`; `b64decode` returns `none` on input that
is not well-formed base64 (in the source such input makes `base64.b64decode`
or the subsequent Fernet call raise, which `decrypt_data` catches). -/

/-- Standard-alphabet base64 character code of a sextet value. -/
def b64IndexStd (i : Nat) : Nat :=
  if i < 26 then 65 + i
  else if i < 52 then 97 + (i - 26)
  else if i < 62 then 48 + (i - 52)
  else if i = 62 then 43
  else 47

/-- Urlsafe-alphabet base64 character code of a sextet value (`-` and `_`
instead of `+` and `/`). -/
def b64IndexUrl (i : Nat) : Nat :=
  if i < 26 then 65 + i
  else if i < 52 then 97 + (i - 26)
  else if i < 62 then 48 + (i - 52)
  else if i = 62 then 45
  else 95

/-- Sextet value of a standard-alphabet base64 character code, `none` for
characters outside the alphabet. -/
def b64RevStd (c : Nat) : Option Nat :=
  if 65 ≤ c ∧ c ≤ 90 then some (c - 65)
  else if 97 ≤ c ∧ c ≤ 122 then some (c - 97 + 26)
  else if 48 ≤ c ∧ c ≤ 57 then some (c - 48 + 52)
  else if c = 43 then some 62
  else if c = 47 then some 63
  else none

theorem b64RevStd_index : ∀ i, i < 64 → b64RevStd (b64IndexStd i) = some i := by
  decide

/-- RFC 4648 base64 encoding of a byte list: three bytes become four
characters, with `=` padding for a final group of one or two bytes. -/
def b64encode : List Nat → List Nat
  | a :: b :: c :: rest =>
    b64IndexStd (a / 4) :: b64IndexStd (a % 4 * 16 + b / 16) ::
      b64IndexStd (b % 16 * 4 + c / 64) :: b64IndexStd (c % 64) :: b64encode rest
  | [a, b] => [b64IndexStd (a / 4), b64IndexStd (a % 4 * 16 + b / 16),
      b64IndexStd (b % 16 * 4), 61]
  | [a] => [b64IndexStd (a / 4), b64IndexStd (a % 4 * 16), 61, 61]
  | [] => []

/-- Urlsafe base64 encoding, used by `derive_key` for the Fernet key. -/
def b64encodeUrl : List Nat → List Nat
  | a :: b :: c :: rest =>
    b64IndexUrl (a / 4) :: b64IndexUrl (a % 4 * 16 + b / 16) ::
      b64IndexUrl (b % 16 * 4 + c / 64) :: b64IndexUrl (c % 64) :: b64encodeUrl rest
  | [a, b] => [b64IndexUrl (a / 4), b64IndexUrl (a % 4 * 16 + b / 16),
      b64IndexUrl (b % 16 * 4), 61]
  | [a] => [b64IndexUrl (a / 4), b64IndexUrl (a % 4 * 16), 61, 61]
  | [] => []

/-- Base64 decoding: groups of four characters, the last group possibly
padded, `none` on anything else. -/
def b64decode : List Nat → Option (List Nat)
  | [] => some []
  | c0 :: c1 :: c2 :: c3 :: rest =>
    match b64RevStd c0, b64RevStd c1 with
    | some s0, some s1 =>
      if c2 = 61 then
        if c3 = 61 ∧ rest = [] then some [s0 * 4 + s1 / 16] else none
      else
        match b64RevStd c2 with
        | some s2 =>
          if c3 = 61 then
            if rest = [] then some [s0 * 4 + s1 / 16, s1 % 16 * 16 + s2 / 4] else none
          else
            match b64RevStd c3 with
            | some s3 =>
              match b64decode rest with
              | some bs => some ((s0 * 4 + s1 / 16) :: (s1 % 16 * 16 + s2 / 4) ::
                  (s2 % 4 * 64 + s3) :: bs)
              | none => none
            | none => none
        | none => none
    | _, _ => none
  | _ => none

theorem b64IndexStd_ne_pad (i : Nat) (h : i < 64) : b64IndexStd i ≠ 61 := by
  revert i h
  decide

theorem b64decode_encode : ∀ (l : List Nat), (∀ x ∈ l, x < 256) →
    b64decode (b64encode l) = some l
  | [] => fun _ => rfl
  | [a] => fun h => by
    have ha : a < 256 := h a (by simp)
    have h0 : a / 4 < 64 := by omega
    have h1 : a % 4 * 16 < 64 := by omega
    simp [b64encode, b64decode, b64RevStd_index _ h0, b64RevStd_index _ h1]
    omega
  | [a, b] => fun h => by
    have ha : a < 256 := h a (by simp)
    have hb : b < 256 := h b (by simp)
    have h0 : a / 4 < 64 := by omega
    have h1 : a % 4 * 16 + b / 16 < 64 := by omega
    have h2 : b % 16 * 4 < 64 := by omega
    simp [b64encode, b64decode, b64RevStd_index _ h0, b64RevStd_index _ h1,
      b64RevStd_index _ h2, b64IndexStd_ne_pad _ h2]
    omega
  | a :: b :: c :: rest => fun h => by
    have ha : a < 256 := h a (by simp)
    have hb : b < 256 := h b (by simp)
    have hc : c < 256 := h c (by simp)
    have h0 : a / 4 < 64 := by omega
    have h1 : a % 4 * 16 + b / 16 < 64 := by omega
    have h2 : b % 16 * 4 + c / 64 < 64 := by omega
    have h3 : c % 64 < 64 := by omega
    have ih := b64decode_encode rest (fun x hx => h x (by simp [hx]))
    simp [b64encode, b64decode, b64RevStd_index _ h0, b64RevStd_index _ h1,
      b64RevStd_index _ h2, b64RevStd_index _ h3, b64IndexStd_ne_pad _ h2,
      b64IndexStd_ne_pad _ h3, ih]
    omega

theorem b64encodeUrl_length : ∀ l : List Nat,
    (b64encodeUrl l).length = (l.length + 2) / 3 * 4
  | [] => rfl
  | [_] => by
    simp [b64encodeUrl]
  | [_, _] => by
    simp [b64encodeUrl]
  | a :: b :: c :: rest => by
    have ih := b64encodeUrl_length rest
    simp only [b64encodeUrl, List.length_cons, ih]
    omega

/-! ### Key derivation -/

/-- The PBKDF2 iteration count constant of the source. -/
def KDF_ITERATIONS : Nat := 480000

/-- Modelled from the library contract: the 32 bytes produced by
`PBKDF2HMAC(algorithm=SHA256(), length=32, salt=salt,
iterations=KDF_ITERATIONS).derive(password.encode())` — a deterministic
function of the password and the full salt (PBKDF2 accepts a salt of any
length), with a concrete mixing permutation standing in for the SHA-256
keystream.  Theorems that need absence of KDF collisions state that
cryptographic assumption as a hypothesis at their quantified instance. -/
def pbkdf2_sha256 (password : String) (salt : List Nat) : List Nat :=
  (List.range 32).map (fun i =>
    (((password.toList.map Char.toNat) ++ (257 :: salt)).foldl
      (fun acc b => (acc * 6364136223846793005 + b * 1442695040888963407 + 1) %
        18446744073709551616)
      (i * 7919 + KDF_ITERATIONS)) % 256)

/-- `derive_key` from the source: derive 32 bytes by PBKDF2-HMAC-SHA256 over
the password and salt, and return `base64.urlsafe_b64encode` of them (the
key format `Fernet` expects).  The source performs no validation of the
salt's length. -/
def derive_key (password : String) (salt : List Nat) : List Nat :=
  b64encodeUrl (pbkdf2_sha256 password salt)

theorem pbkdf2_sha256_length (password : String) (salt : List Nat) :
    (pbkdf2_sha256 password salt).length = 32 := by
  simp [pbkdf2_sha256]

theorem derive_key_length (password : String) (salt : List Nat) :
    (derive_key password salt).length = 44 := by
  simp [derive_key, b64encodeUrl_length, pbkdf2_sha256_length]

/-! ### Fernet authenticated encryption

Modelled from the library contract: `cryptography.fernet.Fernet`.  The model
is ideal authenticated encryption: the token is the byte-encoded
(key, message) body followed by a full copy of itself — the copy stands in
for the HMAC-SHA256 tag that covers the whole real token.  It gives exactly
the guarantees the source relies on: decrypting with the encryption key
recovers the message; decrypting with any other key, or decrypting any
token altered in a single byte, is rejected (`InvalidToken`, modelled as
`none`). -/

/-- `Fernet(key).encrypt(msg)` in the ideal model. -/
def fernet_encrypt (key msg : List Nat) : List Nat :=
  (encBytes key ++ encBytes msg) ++ (encBytes key ++ encBytes msg)

/-- `Fernet(key).decrypt(token)` in the ideal model; `none` models a raised
`InvalidToken`. -/
def fernet_decrypt (key token : List Nat) : Option (List Nat) :=
  if token.length % 2 = 0 ∧
      token.take (token.length / 2) = token.drop (token.length / 2) then
    match decBytes (token.take (token.length / 2)) with
    | some (k, r) =>
      match decBytes r with
      | some (m, r2) => if k = key ∧ r2 = [] then some m else none
      | none => none
    | none => none
  else none

theorem fernet_encrypt_lt (key msg : List Nat) :
    ∀ x ∈ fernet_encrypt key msg, x < 256 := by
  intro x hx
  simp only [fernet_encrypt, List.mem_append] at hx
  rcases hx with (hx | hx) | (hx | hx) <;>
    first
      | exact encBytes_lt key x hx
      | exact encBytes_lt msg x hx

theorem fernet_decrypt_encrypt (key msg : List Nat) :
    fernet_decrypt key (fernet_encrypt key msg) = some msg := by
  unfold fernet_encrypt fernet_decrypt
  have hlen : ((encBytes key ++ encBytes msg) ++ (encBytes key ++ encBytes msg)).length / 2
      = (encBytes key ++ encBytes msg).length := by
    simp only [List.length_append]
    omega
  have heven : ((encBytes key ++ encBytes msg) ++ (encBytes key ++ encBytes msg)).length % 2
      = 0 := by
    simp only [List.length_append]
    omega
  rw [hlen, List.take_left, List.drop_left]
  have hmsg : decBytes (encBytes msg) = some (msg, []) := by
    have h := decBytes_encBytes msg []
    simpa using h
  simp [heven, decBytes_encBytes, hmsg]
  omega

theorem fernet_decrypt_wrong_key (key key2 msg : List Nat) (h : key ≠ key2) :
    fernet_decrypt key2 (fernet_encrypt key msg) = none := by
  unfold fernet_encrypt fernet_decrypt
  have hlen : ((encBytes key ++ encBytes msg) ++ (encBytes key ++ encBytes msg)).length / 2
      = (encBytes key ++ encBytes msg).length := by
    simp only [List.length_append]
    omega
  have heven : ((encBytes key ++ encBytes msg) ++ (encBytes key ++ encBytes msg)).length % 2
      = 0 := by
    simp only [List.length_append]
    omega
  rw [hlen, List.take_left, List.drop_left]
  have hmsg : decBytes (encBytes msg) = some (msg, []) := by
    have h2 := decBytes_encBytes msg []
    simpa using h2
  simp [heven, decBytes_encBytes, hmsg, h]

theorem set_take_ne_drop (B : List Nat) (i v : Nat) (hi : i < (B ++ B).length)
    (hv : v ≠ (B ++ B).getD i 0) :
    ((B ++ B).set i v).take B.length ≠ ((B ++ B).set i v).drop B.length := by
  intro heq
  have happ : (B ++ B).length = B.length + B.length := by simp
  have hset : ((B ++ B).set i v).length = B.length + B.length := by simp
  by_cases hiN : i < B.length
  · have h1 : i < (((B ++ B).set i v).take B.length).length := by
      simp only [List.length_take, hset]
      omega
    have h2 : i < (((B ++ B).set i v).drop B.length).length := by
      simp only [List.length_drop, hset]
      omega
    have hcong : (((B ++ B).set i v).take B.length).getD i 0
        = (((B ++ B).set i v).drop B.length).getD i 0 := by rw [heq]
    rw [List.getD_eq_getElem _ _ h1, List.getD_eq_getElem _ _ h2,
      List.getElem_take, List.getElem_drop,
      List.getElem_set_self (by omega),
      List.getElem_set_ne (by omega)] at hcong
    rw [List.getElem_append_right (by omega)] at hcong
    rw [List.getD_eq_getElem _ _ hi, List.getElem_append_left hiN] at hv
    apply hv
    rw [hcong]
    congr 1
    omega
  · have hik : i - B.length < B.length := by omega
    have h1 : i - B.length < (((B ++ B).set i v).take B.length).length := by
      simp only [List.length_take, hset]
      omega
    have h2 : i - B.length < (((B ++ B).set i v).drop B.length).length := by
      simp only [List.length_drop, hset]
      omega
    have hcong : (((B ++ B).set i v).take B.length).getD (i - B.length) 0
        = (((B ++ B).set i v).drop B.length).getD (i - B.length) 0 := by rw [heq]
    rw [List.getD_eq_getElem _ _ h1, List.getD_eq_getElem _ _ h2,
      List.getElem_take, List.getElem_drop] at hcong
    rw [List.getElem_set_ne (by omega)] at hcong
    rw [List.getElem_append_left hik] at hcong
    have hidx : B.length + (i - B.length) = i := by omega
    simp only [hidx] at hcong
    rw [List.getElem_set_self (by omega)] at hcong
    apply hv
    rw [List.getD_eq_getElem _ _ hi, List.getElem_append_right (by omega : B.length ≤ i)]
    exact hcong.symm

theorem fernet_decrypt_tamper (key2 key msg : List Nat) (i v : Nat)
    (hi : i < (fernet_encrypt key msg).length)
    (hv : v ≠ (fernet_encrypt key msg).getD i 0) :
    fernet_decrypt key2 ((fernet_encrypt key msg).set i v) = none := by
  unfold fernet_encrypt at hi hv ⊢
  have hhalf : (((encBytes key ++ encBytes msg) ++ (encBytes key ++ encBytes msg)).set
      i v).length / 2 = (encBytes key ++ encBytes msg).length := by
    simp only [List.length_set, List.length_append]
    omega
  unfold fernet_decrypt
  rw [hhalf, if_neg]
  intro hcond
  exact set_take_ne_drop (encBytes key ++ encBytes msg) i v hi hv hcond.2

/-! ### The source's core functions -/

/-- `SALT_SIZE` constant of the source. -/
def SALT_SIZE : Nat := 16

/-- `VAULT_PATH` constant of the source (the expanded user path). -/
def VAULT_PATH : String := "~/.mypw_vault.enc"

/-- `encrypt_data` from the source: generate a fresh salt (`os.urandom(SALT_SIZE)`,
modelled as the explicit `salt` argument), derive a key from the password and
salt, Fernet-encrypt the JSON serialization of the data dictionary, and
return the base64 encoding of salt ‖ token. -/
def encrypt_data (salt : List Nat) (data : Vault) (password : String) : List Nat :=
  b64encode (salt ++ fernet_encrypt (derive_key password salt) (json_dumps data))

/-- `decrypt_data` from the source: base64-decode the blob, split off the
leading `SALT_SIZE` bytes as the salt, derive the key, Fernet-decrypt the
remainder and deserialize.  The source wraps the body in
`try ... except Exception: return None`; every failing step is therefore
modelled as `none`. -/
def decrypt_data (encrypted_blob : List Nat) (password : String) : Option Vault :=
  match b64decode encrypted_blob with
  | some decoded_blob =>
    match fernet_decrypt (derive_key password (decoded_blob.take SALT_SIZE))
        (decoded_blob.drop SALT_SIZE) with
    | some decrypted_data => json_loads decrypted_data
    | none => none
  | none => none

/-- File-system operations performed by the persistence layer, for stating
what `save_vault` does to the disk. -/
inductive FsOp where
  | openWriteTrunc (path : String)
  | write (path : String) (data : List Nat)
  | replaceRename (src : String) (dst : String)
deriving DecidableEq, Repr

/-- `save_vault` from the source as its file-system trace:
`with open(VAULT_PATH, "wb") as f: f.write(encrypt_data(data, password))` —
open the live vault path in truncating write mode, then write the freshly
encrypted container to it. -/
def save_vault (salt : List Nat) (data : Vault) (password : String) : List FsOp :=
  [FsOp.openWriteTrunc VAULT_PATH,
   FsOp.write VAULT_PATH (encrypt_data salt data password)]

/-- The atomic-persist discipline asserted by the spec: the live target path
is never opened for truncating write nor written directly; the new content
arrives only by renaming a distinct temporary path onto the target. -/
def WritesAtomically (ops : List FsOp) (target : String) : Prop :=
  FsOp.openWriteTrunc target ∉ ops ∧
  (∀ d, FsOp.write target d ∉ ops) ∧
  ∃ tmp, tmp ≠ target ∧ FsOp.replaceRename tmp target ∈ ops

/-- Python dict assignment `d[k] = e` on an insertion-ordered association
list: replace the value in place if the key is present, else append. -/
def insertAssoc : List (String × Entry) → String → Entry → List (String × Entry)
  | [], k, e => [(k, e)]
  | (k2, e2) :: rest, k, e =>
    if k2 = k then (k, e) :: rest else (k2, e2) :: insertAssoc rest k e

/-- Python dict lookup `d.get(k)` on an association list. -/
def lookupAssoc : List (String × Entry) → String → Option Entry
  | [], _ => none
  | (k2, e2) :: rest, k => if k2 = k then some e2 else lookupAssoc rest k

/-- Python's `str.lower()` on service names, modelled as per-character
lowercasing of the string's characters (service names are ASCII, where
`Char.toLower` agrees with Python). -/
def str_lower (s : String) : String := String.mk (s.data.map Char.toLower)

/-- The vault mutation performed by `MyPW.add_entry`:
`self.vault_data['accounts'][service.lower()] = {"username": ..., "password": ...}`.
The surrounding prompts and overwrite confirmation are collaborator-layer
I/O; the core operation is the lowercased-key dict assignment. -/
def add_entry (v : Vault) (service : String) (e : Entry) : Vault :=
  Vault.mk (insertAssoc v.accounts (str_lower service) e)

/-- The lookup performed by `MyPW.get_entry`:
`self.vault_data['accounts'].get(service_name.lower())`. -/
def get_entry (v : Vault) (service_name : String) : Option Entry :=
  lookupAssoc v.accounts (str_lower service_name)

theorem lookupAssoc_insertAssoc (l : List (String × Entry)) (k : String) (e : Entry) :
    lookupAssoc (insertAssoc l k e) k = some e := by
  induction l with
  | nil => simp [insertAssoc, lookupAssoc]
  | cons a rest ih =>
    by_cases h : a.1 = k
    · simp [insertAssoc, lookupAssoc, h]
    · simp only [insertAssoc, lookupAssoc, h, if_false]
      simpa [lookupAssoc, h] using ih

/-! ### Password generation -/

/-- `string.ascii_uppercase`. -/
def ascii_uppercase : List Char := "ABCDEFGHIJKLMNOPQRSTUVWXYZ".toList

/-- `string.ascii_lowercase`. -/
def ascii_lowercase : List Char := "abcdefghijklmnopqrstuvwxyz".toList

/-- `string.digits`. -/
def digits : List Char := "0123456789".toList

/-- `string.punctuation`: the 32 ASCII punctuation characters, in ascending
code order (codes 33–47, 58–64, 91–96, 123–126), built from codes to avoid
quoting special characters. -/
def punctuation : List Char :=
  ((List.range 127).filter (fun c =>
    (33 ≤ c ∧ c ≤ 47) ∨ (58 ≤ c ∧ c ≤ 64) ∨ (91 ≤ c ∧ c ≤ 96) ∨ 123 ≤ c)).map
    Char.ofNat

/-- `MyPW.generate_password` from the source: build the alphabet as the
concatenation of the enabled character classes (uppercase, lowercase,
digits, punctuation, in the source's order); return `None` if the alphabet
is empty, else draw `length` characters.  `secrets.choice(alphabet)` is
modelled by the arbitrary index stream `pick`, reduced modulo the alphabet
size — `choice` returns an element of the alphabet, uniformly at random. -/
def generate_password (pick : Nat → Nat) (length : Nat)
    (include_symbols include_uppercase include_lowercase include_numbers : Bool) :
    Option (List Char) :=
  let alphabet :=
    (if include_uppercase then ascii_uppercase else []) ++
    (if include_lowercase then ascii_lowercase else []) ++
    (if include_numbers then digits else []) ++
    (if include_symbols then punctuation else [])
  if alphabet.isEmpty then none
  else some ((List.range length).map (fun i => alphabet.getD (pick i % alphabet.length) 'A'))

/-! ### Concrete fixtures used by the witnesses -/

/-- A concrete 16-byte salt (all zeros), a possible `os.urandom(16)` value. -/
def salt0 : List Nat := List.replicate 16 0

/-- A second concrete 16-byte salt, distinct from `salt0`. -/
def salt1 : List Nat := 1 :: List.replicate 15 0

/-- A concrete entry. -/
def entry0 : Entry := Entry.mk "me@example.com" "xYz1!"

/-- A concrete vault holding one account. -/
def vault1 : Vault := Vault.mk [("github", entry0)]

/-- How `decrypt_data` evaluates on output of `encrypt_data`: the base64 and
salt/ciphertext split always succeed, leaving the Fernet decryption (under
the possibly different password `q`) and the deserialization. -/
theorem decrypt_of_encrypt (salt : List Nat) (c : Vault) (p q : String)
    (hlen : salt.length = SALT_SIZE) (hbytes : ∀ b ∈ salt, b < 256) :
    decrypt_data (encrypt_data salt c p) q
      = match fernet_decrypt (derive_key q salt)
          (fernet_encrypt (derive_key p salt) (json_dumps c)) with
        | some pt => json_loads pt
        | none => none := by
  unfold encrypt_data decrypt_data
  have hcont : ∀ x ∈ salt ++ fernet_encrypt (derive_key p salt) (json_dumps c),
      x < 256 := by
    intro x hx
    rcases List.mem_append.mp hx with hx | hx
    · exact hbytes x hx
    · exact fernet_encrypt_lt _ _ x hx
  have htake : (salt ++ fernet_encrypt (derive_key p salt) (json_dumps c)).take SALT_SIZE
      = salt := by
    rw [← hlen]
    exact List.take_left salt _
  have hdrop : (salt ++ fernet_encrypt (derive_key p salt) (json_dumps c)).drop SALT_SIZE
      = fernet_encrypt (derive_key p salt) (json_dumps c) := by
    rw [← hlen]
    exact List.drop_left salt _
  simp only [b64decode_encode _ hcont, htake, hdrop]

/-- C1: for every VaultContents dictionary `c` and every password `p`,
decrypting the result of encrypting `c` under `p` with the same password
returns contents equal to `c` — `decrypt(encrypt(c, p), p) == c`.  The fresh
`os.urandom(16)` salt of the encryption call is modelled as an arbitrary
16-byte value. -/
theorem C1_roundtrip (salt : List Nat) (c : Vault) (p : String)
    (hlen : salt.length = SALT_SIZE) (hbytes : ∀ b ∈ salt, b < 256) :
    decrypt_data (encrypt_data salt c p) p = some c := by
  rw [decrypt_of_encrypt salt c p p hlen hbytes]
  simp only [fernet_decrypt_encrypt, json_loads_dumps]

/-- Witness for C1 at a concrete salt, vault and password. -/
theorem C1_roundtrip_witness :
    decrypt_data (encrypt_data salt0 vault1 "Secr3t!") "Secr3t!" = some vault1 :=
  C1_roundtrip salt0 vault1 "Secr3t!" (by decide) (by decide)

/-- C2: for a valid VaultFile produced by `encrypt_data`, replacing any single
byte of its ciphertext (Fernet token) portion by a different byte value makes
decryption fail with the opaque failure value (`None` — the observable
`DecryptionFailed`); it never succeeds with corrupted contents.  The
container is addressed after base64 decoding: the tampered file is the
base64 encoding of the unchanged salt followed by the altered token. -/
theorem C2_tamper_detection (salt : List Nat) (c : Vault) (p : String) (i v : Nat)
    (hlen : salt.length = SALT_SIZE) (hbytes : ∀ b ∈ salt, b < 256)
    (hi : i < (fernet_encrypt (derive_key p salt) (json_dumps c)).length)
    (hv : v < 256)
    (hne : v ≠ (fernet_encrypt (derive_key p salt) (json_dumps c)).getD i 0) :
    decrypt_data
      (b64encode (salt ++ (fernet_encrypt (derive_key p salt) (json_dumps c)).set i v))
      p = none := by
  have hcont : ∀ x ∈ salt ++ (fernet_encrypt (derive_key p salt) (json_dumps c)).set i v,
      x < 256 := by
    intro x hx
    rcases List.mem_append.mp hx with hx | hx
    · exact hbytes x hx
    · rcases List.mem_or_eq_of_mem_set hx with hx | hx
      · exact fernet_encrypt_lt _ _ x hx
      · omega
  have htake : (salt ++ (fernet_encrypt (derive_key p salt) (json_dumps c)).set i v).take
      SALT_SIZE = salt := by
    rw [← hlen]
    exact List.take_left salt _
  have hdrop : (salt ++ (fernet_encrypt (derive_key p salt) (json_dumps c)).set i v).drop
      SALT_SIZE = (fernet_encrypt (derive_key p salt) (json_dumps c)).set i v := by
    rw [← hlen]
    exact List.drop_left salt _
  unfold decrypt_data
  simp only [b64decode_encode _ hcont, htake, hdrop,
    fernet_decrypt_tamper (derive_key p salt) (derive_key p salt) (json_dumps c) i v hi hne]

/-- Witness for C2: altering byte 0 of the concrete token to 255 makes
decryption under the correct password return `None`. -/
theorem C2_tamper_detection_witness :
    decrypt_data
      (b64encode (salt0 ++ (fernet_encrypt (derive_key "Secr3t!" salt0)
        (json_dumps vault1)).set 0 255))
      "Secr3t!" = none :=
  C2_tamper_detection salt0 vault1 "Secr3t!" 0 255 (by decide) (by decide) (by decide)
    (by decide) (by decide)

/-- C3: decrypting `encrypt(c, p1)` with a different password `p2` fails, and
the failure is the single opaque value (`None`) that the source also returns
for a malformed container and for a deserialization failure — no further
detail is surfaced.  The hypothesis `hkdf` is the cryptographic assumption
that the two passwords do not collide under the KDF at this salt (for a
32-byte KDF output, collision-freeness of every pair is
information-theoretically impossible, so it is assumed at the quantified
instance, as negligible-probability events are in the security argument). -/
theorem C3_wrong_password_opaque (salt : List Nat) (c : Vault) (p1 p2 : String)
    (hlen : salt.length = SALT_SIZE) (hbytes : ∀ b ∈ salt, b < 256)
    (_hp : p1 ≠ p2)
    (hkdf : derive_key p1 salt ≠ derive_key p2 salt) :
    decrypt_data (encrypt_data salt c p1) p2 = none ∧
    decrypt_data [33, 33, 33] p2 = none ∧
    decrypt_data (b64encode (salt ++ fernet_encrypt (derive_key p2 salt) [255])) p2
      = none := by
  refine ⟨?_, rfl, ?_⟩
  · rw [decrypt_of_encrypt salt c p1 p2 hlen hbytes]
    simp only [fernet_decrypt_wrong_key _ _ _ hkdf]
  · have hcont : ∀ x ∈ salt ++ fernet_encrypt (derive_key p2 salt) [255], x < 256 := by
      intro x hx
      rcases List.mem_append.mp hx with hx | hx
      · exact hbytes x hx
      · exact fernet_encrypt_lt _ _ x hx
    have htake : (salt ++ fernet_encrypt (derive_key p2 salt) [255]).take SALT_SIZE
        = salt := by
      rw [← hlen]
      exact List.take_left salt _
    have hdrop : (salt ++ fernet_encrypt (derive_key p2 salt) [255]).drop SALT_SIZE
        = fernet_encrypt (derive_key p2 salt) [255] := by
      rw [← hlen]
      exact List.drop_left salt _
    unfold decrypt_data
    simp only [b64decode_encode _ hcont, htake, hdrop, fernet_decrypt_encrypt]
    rfl

/-- Witness for C3 at two concrete distinct passwords whose derived keys
differ at the concrete salt. -/
theorem C3_wrong_password_opaque_witness :
    decrypt_data (encrypt_data salt0 vault1 "Secr3t!") "wrong" = none ∧
    decrypt_data [33, 33, 33] "wrong" = none ∧
    decrypt_data (b64encode (salt0 ++ fernet_encrypt (derive_key "wrong" salt0) [255]))
      "wrong" = none :=
  C3_wrong_password_opaque salt0 vault1 "Secr3t!" "wrong" (by decide) (by decide)
    (by decide) (by decide)

/-- C7: two `encrypt_data` calls with identical contents and identical
password but distinct fresh 16-byte salts (the source draws a fresh
`os.urandom(16)` salt on every encryption and stores it in the output)
produce different VaultFile bytes. -/
theorem C7_distinct_salts_distinct_files (c : Vault) (p : String) (s1 s2 : List Nat)
    (hl1 : s1.length = SALT_SIZE) (hl2 : s2.length = SALT_SIZE)
    (hb1 : ∀ b ∈ s1, b < 256) (hb2 : ∀ b ∈ s2, b < 256)
    (hne : s1 ≠ s2) :
    encrypt_data s1 c p ≠ encrypt_data s2 c p := by
  intro heq
  apply hne
  have hc1 : ∀ x ∈ s1 ++ fernet_encrypt (derive_key p s1) (json_dumps c), x < 256 := by
    intro x hx
    rcases List.mem_append.mp hx with hx | hx
    · exact hb1 x hx
    · exact fernet_encrypt_lt _ _ x hx
  have hc2 : ∀ x ∈ s2 ++ fernet_encrypt (derive_key p s2) (json_dumps c), x < 256 := by
    intro x hx
    rcases List.mem_append.mp hx with hx | hx
    · exact hb2 x hx
    · exact fernet_encrypt_lt _ _ x hx
  have d1 := b64decode_encode _ hc1
  have d2 := b64decode_encode _ hc2
  unfold encrypt_data at heq
  rw [heq, d2] at d1
  have hsame : s2 ++ fernet_encrypt (derive_key p s2) (json_dumps c)
      = s1 ++ fernet_encrypt (derive_key p s1) (json_dumps c) := by
    exact Option.some.inj d1
  have ht1 : (s1 ++ fernet_encrypt (derive_key p s1) (json_dumps c)).take s1.length
      = s1 := List.take_left s1 _
  have ht2 : (s2 ++ fernet_encrypt (derive_key p s2) (json_dumps c)).take s2.length
      = s2 := List.take_left s2 _
  rw [← ht1, ← ht2, hl1, hl2, hsame]

/-- Witness for C7 at two concrete distinct 16-byte salts. -/
theorem C7_distinct_salts_distinct_files_witness :
    encrypt_data salt0 vault1 "Secr3t!" ≠ encrypt_data salt1 vault1 "Secr3t!" :=
  C7_distinct_salts_distinct_files vault1 "Secr3t!" salt0 salt1 (by decide) (by decide)
    (by decide) (by decide) (by decide)

/-- C4 counterexample: `save_vault` (the only write path, invoked after every
mutation) does not follow the write-temporary-then-rename discipline — at a
concrete input its file-system trace opens the live vault path itself with a
truncating write and contains no rename. -/
theorem C4_not_atomic_counterexample :
    ¬ WritesAtomically (save_vault salt0 vault1 "Secr3t!") VAULT_PATH := by
  intro h
  exact h.1 (by simp [save_vault])

/-- C4 amended: every persist operation truncates the live vault file in
place and writes the freshly encrypted container directly to it; no
temporary location and no rename/replace step is involved, so an
interruption between the truncating open and the completed write can leave
a corrupted or empty vault file. -/
theorem C4_truncate_then_write_in_place (salt : List Nat) (data : Vault)
    (password : String) :
    save_vault salt data password
      = [FsOp.openWriteTrunc VAULT_PATH,
         FsOp.write VAULT_PATH (encrypt_data salt data password)] ∧
    ∀ src dst, FsOp.replaceRename src dst ∉ save_vault salt data password := by
  refine ⟨rfl, ?_⟩
  intro src dst h
  simp [save_vault] at h

/-- C5 counterexample: at a concrete password and 16-byte salt, `derive_key`
returns a 44-byte value — the urlsafe-base64 encoding of the derived key —
not a 32-byte key as claimed. -/
theorem C5_returns_44_bytes_counterexample :
    (derive_key "Secr3t!" salt0).length = 44 ∧
    (derive_key "Secr3t!" salt0).length ≠ 32 := by
  decide

/-- C5 amended: for every password and salt, `derive_key` is deterministic
and side-effect-free (it is a pure function of its two arguments), derives
exactly 32 bytes via PBKDF2-HMAC-SHA256, and returns the urlsafe-base64
encoding of those 32 bytes, a 44-byte value. -/
theorem C5_derive_key_shape (password : String) (salt : List Nat) :
    (pbkdf2_sha256 password salt).length = 32 ∧
    derive_key password salt = b64encodeUrl (pbkdf2_sha256 password salt) ∧
    (derive_key password salt).length = 44 :=
  ⟨pbkdf2_sha256_length password salt, rfl, derive_key_length password salt⟩

/-- C6 counterexample: `derive_key` performs no salt-length validation and
has no failure path — at a concrete 3-byte salt (length ≠ 16) it does not
fail with any error but derives a normal 44-byte key, exactly as it does for
a 16-byte salt. -/
theorem C6_no_invalid_input_counterexample :
    (derive_key "Secr3t!" [1, 2, 3]).length = 44 ∧
    (derive_key "Secr3t!" (List.replicate 17 5)).length = 44 := by
  decide

/-- C6 amended: `derive_key` accepts a salt of any length and never fails:
every salt yields a normal 44-byte key.  It does not silently truncate or
pad the salt but uses it exactly as given: at concrete inputs, a 17-byte
salt derives a different key from its 16-byte truncation, and a 3-byte salt
derives a different key from its zero-padded 16-byte extension. -/
theorem C6_salt_used_as_given :
    (∀ (password : String) (salt : List Nat), (derive_key password salt).length = 44) ∧
    derive_key "Secr3t!" [1, 2, 3, 4, 5, 6, 7, 8, 9, 10, 11, 12, 13, 14, 15, 16, 17]
      ≠ derive_key "Secr3t!" [1, 2, 3, 4, 5, 6, 7, 8, 9, 10, 11, 12, 13, 14, 15, 16] ∧
    derive_key "Secr3t!" [1, 2, 3]
      ≠ derive_key "Secr3t!" ([1, 2, 3] ++ List.replicate 13 0) := by
  refine ⟨fun password salt => derive_key_length password salt, ?_, ?_⟩
  · decide
  · decide

/-- C8: service keys are normalized to lowercase before both insertion and
lookup — for every vault contents `c` and entry `e`, upserting `e` under
"GitHub" and then looking up "github" in the result returns `e`. -/
theorem C8_key_normalization (c : Vault) (e : Entry) :
    get_entry (add_entry c "GitHub" e) "github" = some e := by
  unfold get_entry add_entry
  rw [show str_lower "GitHub" = "github" by decide,
    show str_lower "github" = "github" by decide]
  exact lookupAssoc_insertAssoc c.accounts "github" e

/-- C9: for every positive length `n` and any random stream, generating with
only the digits class enabled yields a password of exactly length `n` whose
characters all come from the digits alphabet, while generating with no
class enabled fails with the source's failure value (`None`, the observable
`EmptyAlphabet`). -/
theorem C9_generator_alphabet (pick : Nat → Nat) (n : Nat) (_hn : 0 < n) :
    (∃ s, generate_password pick n false false false true = some s ∧
      s.length = n ∧ ∀ ch ∈ s, ch ∈ digits) ∧
    generate_password pick n false false false false = none := by
  constructor
  · refine ⟨(List.range n).map (fun i => digits.getD (pick i % digits.length) 'A'),
      ?_, ?_, ?_⟩
    · simp only [generate_password, Bool.false_eq_true, if_false, List.nil_append,
        List.append_nil, if_true]
      rw [if_neg (by decide)]
    · simp
    · intro ch hch
      simp only [List.mem_map, List.mem_range] at hch
      obtain ⟨i, _, hi⟩ := hch
      have hlt : pick i % digits.length < digits.length := by
        apply Nat.mod_lt
        decide
      rw [← hi, List.getD_eq_getElem _ _ hlt]
      exact List.getElem_mem hlt
  · rfl

/-- Witness for C9 at length 5 and the identity index stream. -/
theorem C9_generator_alphabet_witness :
    (∃ s, generate_password (fun i => i) 5 false false false true = some s ∧
      s.length = 5 ∧ ∀ ch ∈ s, ch ∈ digits) ∧
    generate_password (fun i => i) 5 false false false false = none :=
  C9_generator_alphabet (fun i => i) 5 (by decide)

/-- C10: `decrypt_data` is total at its interface: for every input byte blob
and every password it returns either a decoded vault or the failure value
`None`, never an exception (the source wraps the whole body in a
catch-all `except`); concretely, each bad-input family yields `None`:
bytes that are not valid base64, a container whose decoded form is shorter
than 16 bytes, and a well-formed container whose recovered plaintext is not
valid JSON. -/
theorem C10_decrypt_total :
    (∀ (blob : List Nat) (p : String),
      decrypt_data blob p = none ∨ ∃ v, decrypt_data blob p = some v) ∧
    decrypt_data [33, 33, 33] "Secr3t!" = none ∧
    decrypt_data (b64encode [1, 2, 3, 4, 5]) "Secr3t!" = none ∧
    decrypt_data
      (b64encode (salt0 ++ fernet_encrypt (derive_key "Secr3t!" salt0) [255]))
      "Secr3t!" = none := by
  refine ⟨?_, rfl, by decide, by decide⟩
  intro blob p
  cases h : decrypt_data blob p with
  | none => exact Or.inl rfl
  | some v => exact Or.inr ⟨v, rfl⟩
